import Mathlib

/-!
Verification of the L-system core of `main_streamlit.py`:
the grammar expander `_get_l_system`, the rotation matrix `_rot_mat`,
and the turtle interpreter loop of `draw_l_system`.

Python strings are modelled as `List Char`; the `rules : dict[str, str]`
is modelled as an association list from string keys to string values,
where `rules.get(cmd, cmd)` looks up the one-character string of the
scanned symbol and falls back to the symbol itself.
-/

/-- A Python string: an ordered sequence of characters. -/
abbrev Str := List Char

/-- The `rules` dictionary: keys are strings, values are strings.
A Python `dict` has unique keys, so first-match lookup agrees with it;
the theorems below hold for arbitrary association lists. -/
abbrev Rules := List (Str × Str)

/-- `rules.get(cmd)`: look up the one-character string of symbol `c`. -/
def lookupRule (rules : Rules) (c : Char) : Option Str :=
  (rules.find? (fun p => p.1 == [c])).map (fun p => p.2)

/-- `rules.get(cmd, cmd)`: the replacement for symbol `c`, falling back
to the one-character string `[c]` when `c` has no rule. -/
def rulesGet (rules : Rules) (c : Char) : Str :=
  match lookupRule rules c with
  | some r => r
  | none => [c]

/-- One generation of `_get_l_system`: scan the current instructions left
to right, appending `rules.get(cmd, cmd)` to the accumulator
(`new_instructions += rules.get(cmd, cmd)`). -/
def rewriteGeneration (rules : Rules) (instructions : Str) : Str :=
  instructions.foldl (fun new_instructions cmd => new_instructions ++ rulesGet rules cmd) []

/-- `_get_l_system(axiom, rules, iterations)`: apply `rewriteGeneration`
`iterations` times to the axiom (`for _ in range(iterations)`). -/
def get_l_system (ax : Str) (rules : Rules) (iterations : Nat) : Str :=
  (rewriteGeneration rules)^[iterations] ax

/-- Spec-side single-generation rewrite map, from the spec's words: scan
the sequence left to right and replace each symbol by `R[s]` if `s` is a
key of `R` and by the symbol itself otherwise. -/
def specRewrite (rules : Rules) (s : Str) : Str :=
  s.flatMap (fun c =>
    match lookupRule rules c with
    | some r => r
    | none => [c])

lemma rewriteGeneration_acc (rules : Rules) (s : Str) (acc : Str) :
    s.foldl (fun a c => a ++ rulesGet rules c) acc =
      acc ++ s.foldl (fun a c => a ++ rulesGet rules c) [] := by
  induction s generalizing acc with
  | nil => simp
  | cons c rest ih =>
    simp only [List.foldl_cons, List.nil_append]
    rw [ih (acc ++ rulesGet rules c), ih (rulesGet rules c), List.append_assoc]

lemma rewriteGeneration_nil (rules : Rules) : rewriteGeneration rules [] = [] := rfl

lemma rewriteGeneration_cons (rules : Rules) (c : Char) (rest : Str) :
    rewriteGeneration rules (c :: rest) =
      rulesGet rules c ++ rewriteGeneration rules rest := by
  unfold rewriteGeneration
  simp only [List.foldl_cons, List.nil_append]
  exact rewriteGeneration_acc rules rest (rulesGet rules c)

lemma rewriteGeneration_eq_flatMap (rules : Rules) (s : Str) :
    rewriteGeneration rules s = s.flatMap (rulesGet rules) := by
  induction s with
  | nil => rfl
  | cons c rest ih => rw [rewriteGeneration_cons, ih, List.flatMap_cons]

lemma rewriteGeneration_eq_specRewrite (rules : Rules) (s : Str) :
    rewriteGeneration rules s = specRewrite rules s := by
  rw [rewriteGeneration_eq_flatMap]
  unfold specRewrite rulesGet
  rfl

lemma rewriteGeneration_append (rules : Rules) (a b : Str) :
    rewriteGeneration rules (a ++ b) =
      rewriteGeneration rules a ++ rewriteGeneration rules b := by
  simp [rewriteGeneration_eq_flatMap]

/-- C1: `_get_l_system` is exactly the n-fold iteration of the
single-generation left-to-right rewrite map: zero iterations return the
axiom unchanged, and generation `k+1` rewrites the output of
generation `k`. -/
theorem get_l_system_iterates (ax : Str) (rules : Rules) (n : Nat) :
    get_l_system ax rules n = (specRewrite rules)^[n] ax ∧
    get_l_system ax rules 0 = ax ∧
    get_l_system ax rules (n + 1) =
      specRewrite rules (get_l_system ax rules n) := by
  have hiter : ∀ m, get_l_system ax rules m = (specRewrite rules)^[m] ax := by
    intro m
    unfold get_l_system
    induction m with
    | zero => rfl
    | succ k ih =>
      rw [Function.iterate_succ_apply', Function.iterate_succ_apply', ih,
        rewriteGeneration_eq_specRewrite]
  refine ⟨hiter n, rfl, ?_⟩
  rw [hiter n, hiter (n + 1), Function.iterate_succ_apply']

/-- C6: growth law — the length of generation `n+1` is the sum over the
symbols of generation `n` of the length of `R[s]` when `s` is a key of
`R`, and `1` otherwise. -/
theorem get_l_system_growth_law (ax : Str) (rules : Rules) (n : Nat) :
    (get_l_system ax rules (n + 1)).length =
      ((get_l_system ax rules n).map (fun s =>
        match lookupRule rules s with
        | some r => r.length
        | none => 1)).sum := by
  have hstep : get_l_system ax rules (n + 1) =
      rewriteGeneration rules (get_l_system ax rules n) := by
    unfold get_l_system
    rw [Function.iterate_succ_apply']
  rw [hstep, rewriteGeneration_eq_flatMap, List.length_flatMap]
  congr 1
  apply List.map_congr_left
  intro c _
  simp only [Function.comp_apply, rulesGet]
  rcases h : lookupRule rules c with _ | r <;> simp [h]

/-- C10: expansion is a homomorphism for concatenation of axioms. -/
theorem get_l_system_append (rules : Rules) (n : Nat) (a b : Str) :
    get_l_system (a ++ b) rules n =
      get_l_system a rules n ++ get_l_system b rules n := by
  unfold get_l_system
  induction n generalizing a b with
  | zero => rfl
  | succ k ih =>
    rw [Function.iterate_succ_apply, Function.iterate_succ_apply,
      Function.iterate_succ_apply, rewriteGeneration_append, ih]

/-! ## Turtle interpreter of `draw_l_system` -/

noncomputable section

/-- Model of `np.radians`: convert degrees to radians. -/
def radians (angle : ℝ) : ℝ := angle * (Real.pi / 180)

/-- The function `_rot_mat(angle)`: the 2D rotation matrix for `angle`
degrees, as a pair of rows. -/
def _rot_mat (angle : ℝ) : (ℝ × ℝ) × (ℝ × ℝ) :=
  ((Real.cos (radians angle), -Real.sin (radians angle)),
   (Real.sin (radians angle), Real.cos (radians angle)))

/-- Model of `np.dot(m, v)` for a 2-by-2 matrix and a 2-vector. -/
def npDot (m : (ℝ × ℝ) × (ℝ × ℝ)) (v : ℝ × ℝ) : ℝ × ℝ :=
  (m.1.1 * v.1 + m.1.2 * v.2, m.2.1 * v.1 + m.2.2 * v.2)

/-- A line segment plotted by `ax.plot`: endpoints plus style. -/
structure Segment where
  start : ℝ × ℝ
  stop : ℝ × ℝ
  color : String
  lw : ℤ

/-- The interpreter loop state of `draw_l_system`: turtle position and
heading, the save/restore stack, and the segments plotted so far. -/
structure TurtleState where
  turtle_pos : ℝ × ℝ
  turtle_heading : ℝ × ℝ
  stack : List ((ℝ × ℝ) × (ℝ × ℝ))
  segs : List Segment

/-- Failure of the interpreter loop: `stack.pop()` raises on an empty
list, aborting the whole interpretation. -/
inductive DrawError where
  | stackUnderflow
deriving DecidableEq

/-- One iteration of the instruction loop of `draw_l_system`. -/
def drawStep (angle length : ℝ) (color : String) (lw : ℤ)
    (st : TurtleState) (instruction : Char) : Except DrawError TurtleState :=
  if instruction = 'F' then
    let new_pos := (st.turtle_pos.1 + length * st.turtle_heading.1,
                    st.turtle_pos.2 + length * st.turtle_heading.2)
    .ok { st with turtle_pos := new_pos,
                  segs := st.segs ++ [⟨st.turtle_pos, new_pos, color, lw⟩] }
  else if instruction = 'b' then
    let new_pos := (st.turtle_pos.1 + length * st.turtle_heading.1,
                    st.turtle_pos.2 + length * st.turtle_heading.2)
    .ok { st with turtle_pos := new_pos }
  else if instruction = '+' then
    .ok { st with turtle_heading := npDot (_rot_mat angle) st.turtle_heading }
  else if instruction = '-' then
    .ok { st with turtle_heading := npDot (_rot_mat (-angle)) st.turtle_heading }
  else if instruction = '[' then
    .ok { st with stack := (st.turtle_pos, st.turtle_heading) :: st.stack }
  else if instruction = ']' then
    match st.stack with
    | [] => .error .stackUnderflow
    | (pos, heading) :: rest =>
      .ok { st with turtle_pos := pos, turtle_heading := heading, stack := rest }
  else
    .ok st

/-- The instruction loop of `draw_l_system`, left to right; an exception
aborts the rest of the loop. -/
def runTurtle (angle length : ℝ) (color : String) (lw : ℤ) :
    TurtleState → Str → Except DrawError TurtleState
  | st, [] => .ok st
  | st, c :: rest =>
    match drawStep angle length color lw st c with
    | .ok st1 => runTurtle angle length color lw st1 rest
    | .error e => .error e

/-- Initial turtle state: position (0,0), heading (0,1), empty stack,
no segments plotted. -/
def initState : TurtleState := ⟨(0, 0), (0, 1), [], []⟩

/-- The function `draw_l_system`: expand the axiom, then interpret the
instructions; the result is the ordered list of plotted segments, or the
error raised mid-loop (in which case no figure is returned). -/
def draw_l_system (ax : Str) (rules : Rules) (iterations : Nat)
    (angle length : ℝ) (color : String) (lw : ℤ) : Except DrawError (List Segment) :=
  Except.map (fun st => st.segs)
    (runTurtle angle length color lw initState (get_l_system ax rules iterations))

end

lemma radians_neg (θ : ℝ) : radians (-θ) = -radians θ := by
  unfold radians; ring

lemma npDot_rot_neg_rot (θ : ℝ) (v : ℝ × ℝ) :
    npDot (_rot_mat (-θ)) (npDot (_rot_mat θ) v) = v := by
  obtain ⟨x, y⟩ := v
  unfold npDot _rot_mat
  rw [radians_neg, Real.cos_neg, Real.sin_neg]
  have h := Real.sin_sq_add_cos_sq (radians θ)
  simp only [Prod.mk.injEq]
  constructor
  · linear_combination x * h
  · linear_combination y * h

lemma npDot_rot_rot_neg (θ : ℝ) (v : ℝ × ℝ) :
    npDot (_rot_mat θ) (npDot (_rot_mat (-θ)) v) = v := by
  have h := npDot_rot_neg_rot (-θ) v
  rwa [neg_neg] at h

/-- C4: rotating a heading by θ degrees and then by −θ degrees (the
matrices used for `+` and `-`) restores the heading exactly, in either
order; consequently a `+` immediately followed by `-`, or a `-` followed
by `+`, leaves the whole turtle state unchanged. -/
theorem rot_mat_round_trip (θ : ℝ) (v : ℝ × ℝ) (length : ℝ) (color : String)
    (lw : ℤ) (st : TurtleState) :
    npDot (_rot_mat (-θ)) (npDot (_rot_mat θ) v) = v ∧
    npDot (_rot_mat θ) (npDot (_rot_mat (-θ)) v) = v ∧
    runTurtle θ length color lw st ['+', '-'] = .ok st ∧
    runTurtle θ length color lw st ['-', '+'] = .ok st := by
  refine ⟨npDot_rot_neg_rot θ v, npDot_rot_rot_neg θ v, ?_, ?_⟩
  · simp [runTurtle, drawStep, npDot_rot_neg_rot]
  · simp [runTurtle, drawStep, npDot_rot_rot_neg]

/-- C3: a `]` with an empty stack aborts the whole interpretation with a
stack-underflow error; in particular interpreting the one-symbol
sequence `]` fails and returns no segment list at all. -/
theorem pop_on_empty_stack_fails (angle length : ℝ) (color : String) (lw : ℤ)
    (st : TurtleState) (rest : Str) (hst : st.stack = []) :
    runTurtle angle length color lw st (']' :: rest) = .error .stackUnderflow ∧
    draw_l_system [']'] [] 0 angle length color lw = .error .stackUnderflow ∧
    ∀ segs : List Segment, draw_l_system [']'] [] 0 angle length color lw ≠ .ok segs := by
  have hrun : ∀ (st1 : TurtleState) (rest1 : Str), st1.stack = [] →
      runTurtle angle length color lw st1 (']' :: rest1) = .error .stackUnderflow := by
    intro st1 rest1 h1
    simp [runTurtle, drawStep, h1]
  have hdraw : draw_l_system [']'] [] 0 angle length color lw = .error .stackUnderflow := by
    unfold draw_l_system
    have : get_l_system [']'] [] 0 = [']'] := rfl
    rw [this, hrun initState [] rfl]
    rfl
  refine ⟨hrun st rest hst, hdraw, ?_⟩
  intro segs
  rw [hdraw]
  intro hcontra
  exact Except.noConfusion hcontra

theorem pop_on_empty_stack_fails_witness :
    runTurtle 0 1 "c" 1 initState (']' :: []) = .error .stackUnderflow ∧
    draw_l_system [']'] [] 0 0 1 "c" 1 = .error .stackUnderflow ∧
    ∀ segs : List Segment, draw_l_system [']'] [] 0 0 1 "c" 1 ≠ .ok segs :=
  pop_on_empty_stack_fails 0 1 "c" 1 initState [] rfl

lemma radians_90 : radians 90 = Real.pi / 2 := by
  unfold radians; ring

lemma cos_radians_90 : Real.cos (radians 90) = 0 := by
  rw [radians_90, Real.cos_pi_div_two]

lemma sin_radians_90 : Real.sin (radians 90) = 1 := by
  rw [radians_90, Real.sin_pi_div_two]

/-- C5: a `]` restores position and heading to the most recently pushed
pair (LIFO); interpreting `F[+F]F` with angle 90 and step length 1
yields exactly 3 segments, and the third segment starts where the first
segment ends. -/
theorem pop_restores_and_scenario3 (angle length : ℝ) (color : String) (lw : ℤ)
    (pos heading p h : ℝ × ℝ) (stack : List ((ℝ × ℝ) × (ℝ × ℝ)))
    (segs : List Segment) :
    drawStep angle length color lw ⟨pos, heading, (p, h) :: stack, segs⟩ ']' =
      .ok ⟨p, h, stack, segs⟩ ∧
    ∃ s1 s2 s3 : Segment,
      runTurtle 90 1 "tab:orange" 1 initState ['F', '[', '+', 'F', ']', 'F'] =
        .ok ⟨(0, 2), (0, 1), [], [s1, s2, s3]⟩ ∧
      s3.start = s1.stop := by
  constructor
  · simp [drawStep]
  · refine ⟨⟨(0, 0), (0, 1), "tab:orange", 1⟩, ⟨(0, 1), (-1, 1), "tab:orange", 1⟩,
      ⟨(0, 1), (0, 2), "tab:orange", 1⟩, ?_, rfl⟩
    simp [runTurtle, drawStep, initState, npDot, _rot_mat,
      cos_radians_90, sin_radians_90]
    norm_num

lemma drawStep_segs (angle length : ℝ) (color : String) (lw : ℤ)
    (st : TurtleState) (c : Char) (st1 : TurtleState)
    (hok : drawStep angle length color lw st c = .ok st1) :
    ∃ emitted : List Segment,
      st1.segs = st.segs ++ emitted ∧ emitted.length = List.count 'F' [c] := by
  by_cases hF : c = 'F'
  · subst hF
    simp only [drawStep, if_pos rfl] at hok
    cases hok
    exact ⟨_, rfl, by simp⟩
  · have hcount : List.count 'F' [c] = 0 := by
      simp [List.count_cons, hF]
    refine ⟨[], ?_, by simp [hcount]⟩
    rw [List.append_nil]
    by_cases hb : c = 'b'
    · subst hb; simp only [drawStep] at hok; simp at hok; cases hok; rfl
    · by_cases hp : c = '+'
      · subst hp; simp only [drawStep] at hok; simp at hok; cases hok; rfl
      · by_cases hm : c = '-'
        · subst hm; simp only [drawStep] at hok; simp at hok; cases hok; rfl
        · by_cases hl : c = '['
          · subst hl; simp only [drawStep] at hok; simp at hok; cases hok; rfl
          · by_cases hr : c = ']'
            · subst hr
              simp only [drawStep] at hok
              simp at hok
              rcases hstk : st.stack with _ | ⟨⟨sp, sh⟩, rest⟩
              · rw [hstk] at hok; cases hok
              · rw [hstk] at hok; cases hok; rfl
            · simp only [drawStep, if_neg hF, if_neg hb, if_neg hp, if_neg hm,
                if_neg hl, if_neg hr] at hok
              cases hok; rfl

lemma runTurtle_ok_segs (angle length : ℝ) (color : String) (lw : ℤ)
    (instr : Str) (st st1 : TurtleState)
    (hok : runTurtle angle length color lw st instr = .ok st1) :
    ∃ emitted : List Segment,
      st1.segs = st.segs ++ emitted ∧ emitted.length = instr.count 'F' := by
  induction instr generalizing st with
  | nil =>
    simp only [runTurtle] at hok
    cases hok
    exact ⟨[], by simp, by simp⟩
  | cons c rest ih =>
    simp only [runTurtle] at hok
    rcases hstep : drawStep angle length color lw st c with e | stMid
    · rw [hstep] at hok; cases hok
    · rw [hstep] at hok
      obtain ⟨em1, he1, hl1⟩ := drawStep_segs angle length color lw st c stMid hstep
      obtain ⟨em2, he2, hl2⟩ := ih stMid hok
      refine ⟨em1 ++ em2, ?_, ?_⟩
      · rw [he2, he1, List.append_assoc]
      · rw [List.length_append, hl1, hl2, List.count_cons]
        simp [List.count_cons]
        omega

lemma runTurtle_append (angle length : ℝ) (color : String) (lw : ℤ)
    (st : TurtleState) (xs ys : Str) :
    runTurtle angle length color lw st (xs ++ ys) =
      Except.bind (runTurtle angle length color lw st xs)
        (fun stMid => runTurtle angle length color lw stMid ys) := by
  induction xs generalizing st with
  | nil => rfl
  | cons c rest ih =>
    simp only [List.cons_append, runTurtle]
    rcases hstep : drawStep angle length color lw st c with e | stMid
    · rfl
    · exact ih stMid

/-- C2: when interpretation succeeds, it emits exactly one segment per
`F` in the instruction sequence (all other symbols emit none), the
segments already plotted are preserved and the new ones are appended
after them, and the run decomposes over concatenation — so segments are
output in exactly the order their `F` instructions are encountered. -/
theorem draw_segment_count_and_order (angle length : ℝ) (color : String)
    (lw : ℤ) (st : TurtleState) (xs ys : Str) :
    (∀ st1 : TurtleState, runTurtle angle length color lw st xs = .ok st1 →
      ∃ emitted : List Segment,
        st1.segs = st.segs ++ emitted ∧ emitted.length = xs.count 'F') ∧
    runTurtle angle length color lw st (xs ++ ys) =
      Except.bind (runTurtle angle length color lw st xs)
        (fun stMid => runTurtle angle length color lw stMid ys) :=
  ⟨fun st1 hok => runTurtle_ok_segs angle length color lw xs st st1 hok,
   runTurtle_append angle length color lw st xs ys⟩

theorem draw_segment_count_and_order_witness :
    ∃ emitted : List Segment,
      (TurtleState.mk (0, 2) (0, 1) [] [⟨(0, 0), (0, 1), "c", 1⟩]).segs =
        initState.segs ++ emitted ∧
      emitted.length = List.count 'F' ['F', 'b', 'X'] := by
  have hok : runTurtle 0 1 "c" 1 initState ['F', 'b', 'X'] =
      .ok ⟨(0, 2), (0, 1), [], [⟨(0, 0), (0, 1), "c", 1⟩]⟩ := by
    simp [runTurtle, drawStep, initState]
    norm_num
  exact (draw_segment_count_and_order 0 1 "c" 1 initState ['F', 'b', 'X'] []).1 _ hok

/-- C7 counterexample: expanding axiom `F` under the rule mapping
`{"FG": "X"}`, whose key is not a single symbol, does not fail: it
returns the ordinary output `F`, the multi-symbol key never matching. -/
theorem multi_symbol_key_gives_normal_output :
    get_l_system ['F'] [(['F', 'G'], ['X'])] 1 = ['F'] := by decide

lemma lookupRule_filter (rules : Rules) (c : Char) :
    lookupRule (rules.filter (fun p => p.1.length == 1)) c = lookupRule rules c := by
  induction rules with
  | nil => rfl
  | cons kv rest ih =>
    obtain ⟨k, v⟩ := kv
    by_cases hl : k.length = 1
    · rw [List.filter_cons_of_pos (by simpa using hl)]
      by_cases hk : (k == [c]) = true
      · simp [lookupRule, List.find?_cons, hk]
      · have hk' : (k == [c]) = false := by simpa using hk
        simp only [lookupRule, List.find?_cons] at ih ⊢
        simp only [hk']
        exact ih
    · rw [List.filter_cons_of_neg (by simpa using hl)]
      have hk' : (k == [c]) = false := by
        simp only [beq_eq_false_iff_ne, ne_eq]
        intro hkk
        apply hl
        rw [hkk]
        rfl
      simp only [lookupRule, List.find?_cons] at ih ⊢
      simp only [hk']
      exact ih

/-- C7 amended: the core does not reject a rules mapping whose keys are
not single symbols — expansion looks each scanned symbol up as a
one-character string, so a key that is not a single symbol never
matches and the expansion behaves exactly as if that rule were absent. -/
theorem get_l_system_ignores_multi_symbol_keys (ax : Str) (rules : Rules) (n : Nat) :
    get_l_system ax rules n =
      get_l_system ax (rules.filter (fun p => p.1.length == 1)) n := by
  have hget : rulesGet (rules.filter (fun p => p.1.length == 1)) = rulesGet rules := by
    funext c
    unfold rulesGet
    rw [lookupRule_filter]
  have hgen : rewriteGeneration (rules.filter (fun p => p.1.length == 1)) =
      rewriteGeneration rules := by
    funext s
    unfold rewriteGeneration
    rw [hget]
  unfold get_l_system
  rw [hgen]

/-- C8: a symbol outside the command set `{F, b, +, -, [, ]}` that is
not a key of the rules mapping is kept verbatim by expansion (identity,
length 1) and is a no-op for the interpreter: position, heading, stack
and segment output are all left unchanged. -/
theorem unknown_symbol_passthrough_noop (c : Char) (rules : Rules)
    (angle length : ℝ) (color : String) (lw : ℤ) (st : TurtleState)
    (hcmd : c ∉ ['F', 'b', '+', '-', '[', ']'])
    (hkey : lookupRule rules c = none) :
    rulesGet rules c = [c] ∧
    rewriteGeneration rules [c] = [c] ∧
    drawStep angle length color lw st c = .ok st := by
  have hget : rulesGet rules c = [c] := by
    unfold rulesGet
    rw [hkey]
  simp only [List.mem_cons, List.not_mem_nil, or_false, not_or] at hcmd
  obtain ⟨hF, hb, hp, hm, hleft, hright⟩ := hcmd
  refine ⟨hget, ?_, ?_⟩
  · rw [rewriteGeneration_cons, hget, rewriteGeneration_nil, List.append_nil]
  · simp only [drawStep, if_neg hF, if_neg hb, if_neg hp, if_neg hm,
      if_neg hleft, if_neg hright]

theorem unknown_symbol_passthrough_noop_witness :
    rulesGet [(['F'], ['F', '+'])] 'X' = ['X'] ∧
    rewriteGeneration [(['F'], ['F', '+'])] ['X'] = ['X'] ∧
    drawStep 0 1 "c" 1 initState 'X' = .ok initState :=
  unknown_symbol_passthrough_noop 'X' [(['F'], ['F', '+'])] 0 1 "c" 1 initState
    (by decide) (by decide)

lemma drawStep_stack_ok (angle length : ℝ) (color : String) (lw : ℤ)
    (st : TurtleState) (c : Char) (hne : c = ']' → st.stack ≠ []) :
    ∃ st1, drawStep angle length color lw st c = .ok st1 ∧
      st1.stack.length + List.count ']' [c] =
        st.stack.length + List.count '[' [c] := by
  by_cases hF : c = 'F'
  · subst hF
    refine ⟨_, rfl, ?_⟩
    simp
  · by_cases hb : c = 'b'
    · subst hb
      refine ⟨_, rfl, ?_⟩
      simp
    · by_cases hp : c = '+'
      · subst hp
        refine ⟨_, rfl, ?_⟩
        simp
      · by_cases hm : c = '-'
        · subst hm
          refine ⟨_, rfl, ?_⟩
          simp
        · by_cases hleft : c = '['
          · subst hleft
            refine ⟨_, rfl, ?_⟩
            simp
          · by_cases hright : c = ']'
            · subst hright
              rcases hstk : st.stack with _ | ⟨⟨sp, sh⟩, rest⟩
              · exact absurd hstk (hne rfl)
              · refine ⟨TurtleState.mk sp sh rest st.segs, ?_, ?_⟩
                · simp [drawStep, hstk]
                · simp [hstk]
            · refine ⟨st, ?_, ?_⟩
              · simp only [drawStep, if_neg hF, if_neg hb, if_neg hp, if_neg hm,
                  if_neg hleft, if_neg hright]
              · simp [List.count_cons, hright, hleft]

lemma runTurtle_ok_of_bracket_bound (angle length : ℝ) (color : String) (lw : ℤ)
    (instr : Str) (st : TurtleState)
    (hbal : ∀ p ∈ instr.inits, p.count ']' ≤ p.count '[' + st.stack.length) :
    ∃ st1, runTurtle angle length color lw st instr = .ok st1 := by
  induction instr generalizing st with
  | nil => exact ⟨st, rfl⟩
  | cons c rest ih =>
    have hne : c = ']' → st.stack ≠ [] := by
      intro hc hempty
      have h1 := hbal [c] (by
        rw [List.mem_inits]
        exact ⟨rest, rfl⟩)
      subst hc
      rw [hempty] at h1
      simp [List.count_cons] at h1
    obtain ⟨stMid, hstep, hlen⟩ := drawStep_stack_ok angle length color lw st c hne
    have hbal1 : ∀ p ∈ rest.inits, p.count ']' ≤ p.count '[' + stMid.stack.length := by
      intro p hp
      have h2 := hbal (c :: p) (by
        rw [List.mem_inits] at hp ⊢
        exact List.cons_prefix_cons.mpr ⟨rfl, hp⟩)
      rw [List.count_cons, List.count_cons] at h2
      rw [List.count_cons, List.count_cons, List.count_nil] at hlen
      split_ifs at h2 hlen <;> omega
    obtain ⟨st1, hrun⟩ := ih stMid hbal1
    refine ⟨st1, ?_⟩
    simp only [runTurtle, hstep]
    exact hrun

/-- C9: an unmatched push is permitted — whenever no prefix of the
instruction sequence contains more `]` than `[`, interpretation runs to
completion with no error, any unpopped saved states simply remaining on
the stack. -/
theorem unmatched_push_permitted (angle length : ℝ) (color : String) (lw : ℤ)
    (instr : Str)
    (hbal : ∀ p ∈ instr.inits, p.count ']' ≤ p.count '[') :
    ∃ st1, runTurtle angle length color lw initState instr = .ok st1 := by
  apply runTurtle_ok_of_bracket_bound
  intro p hp
  have h := hbal p hp
  simp only [initState, List.length_nil]
  omega

theorem unmatched_push_permitted_witness :
    ∃ st1, runTurtle 0 1 "c" 1 initState ['F', '[', '[', 'F'] = .ok st1 :=
  unmatched_push_permitted 0 1 "c" 1 ['F', '[', '[', 'F'] (by decide)
